import Mathlib

/-!
# Verification of the UEFI device-path parsing subsystem

Shallow embedding of `uefi/src/proto/device_path/mod.rs`.

A device path is a packed list of variable-length nodes. Every node starts
with a 4-byte header: a device type tag, a subtype tag, and a `u16`
little-endian length that includes the header itself. The whole path ends
with an END/END_ENTIRE node; instances inside the path are separated by
END/END_INSTANCE nodes.

Byte buffers are modelled as `List Nat` (each element one byte). Machine
integers become `Nat`; the `u16` length field is decoded as
`b2 + 256 * b3`, matching `u16::from_le_bytes`. Fallible operations return
an explicit result type; the `usize` subtraction underflow in
`DevicePathNode::from_ffi_ptr` (a debug-mode panic / release-mode wild
slice) and out-of-range slice indexing are modelled as an explicit
`panicked` outcome, distinct from the recoverable `InvalidLength` error.

Loops in the source are modelled with explicit fuel; every wrapper passes
`bytes.length + 1` fuel, which is always sufficient because each decoded
node consumes at least 4 bytes of the window.
-/

namespace DevicePathSpec

/-- Reserved END device-type tag (`DeviceType::END`); its numeric value
lives in the `uefi-raw` crate (UEFI standard value 0x7f). -/
def END : Nat := 0x7f

/-- Reserved subtype under END marking an instance boundary
(`DeviceSubType::END_INSTANCE`, UEFI standard value 0x01). -/
def END_INSTANCE : Nat := 0x01

/-- Reserved subtype under END marking the end of the entire path
(`DeviceSubType::END_ENTIRE`, UEFI standard value 0xff). -/
def END_ENTIRE : Nat := 0xff

/-- Error type of the byte-slice conversions (`ByteConversionError`). -/
inductive ByteConversionError where
  | InvalidLength
  deriving DecidableEq, Repr

/-- Error type of the specific-node conversions (`NodeConversionError`). -/
inductive NodeConversionError where
  | DifferentType
  | InvalidLength
  | UnsupportedType
  deriving DecidableEq, Repr

/-- Outcome of a safe decoding operation: success, the recoverable
`InvalidLength` error, or a panic (models debug-mode arithmetic underflow
and out-of-range slice indexing, which in release mode are undefined
behavior). -/
inductive DecodeResult (α : Type) where
  | ok (val : α)
  | err (e : ByteConversionError)
  | panicked
  deriving DecidableEq, Repr

/-- `DevicePathHeader`: device type, subtype, and total node length in
bytes (including the 4 header bytes). -/
structure DevicePathHeader where
  device_type : Nat
  sub_type : Nat
  length : Nat
  deriving DecidableEq, Repr

/-- First header byte: the device type tag. -/
def typeTag (bytes : List Nat) : Nat := bytes.getD 0 0

/-- Second header byte: the subtype tag. -/
def subTag (bytes : List Nat) : Nat := bytes.getD 1 0

/-- The u16 little-endian declared length stored in header bytes 2 and 3. -/
def declaredLen (bytes : List Nat) : Nat := bytes.getD 2 0 + 256 * bytes.getD 3 0

/-- Reinterpreting the first four bytes of a window as a
`DevicePathHeader` (the packed `repr(C)` layout of the source). -/
def readHeader (bytes : List Nat) : DevicePathHeader :=
  { device_type := typeTag bytes, sub_type := subTag bytes, length := declaredLen bytes }

/-- `impl TryFrom<&[u8]> for &DevicePathHeader`: succeeds iff the slice
holds at least the 4 header bytes. -/
def headerTryFrom (bytes : List Nat) : Except ByteConversionError DevicePathHeader :=
  if 4 ≤ bytes.length then .ok (readHeader bytes) else .error .InvalidLength

/-- `DevicePathNode`: a view of one node, a header plus the payload bytes
that follow it. -/
structure DevicePathNode where
  header : DevicePathHeader
  data : List Nat
  deriving DecidableEq, Repr

/-- `DevicePathNode::is_end_entire`: the full type equals
(`END`, `END_ENTIRE`). -/
def DevicePathNode.is_end_entire (n : DevicePathNode) : Bool :=
  n.header.device_type == END && n.header.sub_type == END_ENTIRE

/-- `DevicePathNode::from_ffi_ptr`: trusted construction from raw memory,
here modelled by the byte window starting at the pointer. It reads the
header and computes the payload length as `length - 4` with `usize`
subtraction. `none` models the two failure modes of the real code on bad
input: reading a header from fewer than 4 available bytes (out-of-bounds
read), and a declared length below 4 (subtraction underflow, which panics
in debug builds). -/
def DevicePathNode.from_ffi_ptr (bytes : List Nat) : Option DevicePathNode :=
  if 4 ≤ bytes.length ∧ 4 ≤ declaredLen bytes then
    some { header := readHeader bytes
           data := (bytes.drop 4).take (declaredLen bytes - 4) }
  else none

/-- `impl TryFrom<&[u8]> for &DevicePathNode`: reads the header via
`headerTryFrom`, then checks `length <= bytes.len()` and delegates to
`from_ffi_ptr`. Note the source never checks `4 <= length` here, so a
declared length below 4 reaches the underflow in `from_ffi_ptr`. -/
def nodeTryFrom (bytes : List Nat) : DecodeResult DevicePathNode :=
  match headerTryFrom bytes with
  | .error e => .err e
  | .ok hdr =>
    if hdr.length ≤ bytes.length then
      match DevicePathNode.from_ffi_ptr bytes with
      | some node => .ok node
      | none => .panicked
    else .err .InvalidLength

/-- The three stop policies of `DevicePathNodeIterator`. -/
inductive StopCondition where
  | anyEndNode
  | endEntireNode
  | noMoreNodes
  deriving DecidableEq, Repr

/-- One step of an iterator: finished, one yielded item plus the advanced
window, or a panic. -/
inductive IterStep where
  | done
  | yield (node : DevicePathNode) (rest : List Nat)
  | panicked
  deriving DecidableEq, Repr

/-- One call to `DevicePathNodeIterator::next`: return `done` on an empty
window, decode a node via the trusted constructor, stop (without
yielding) when the stop policy triggers, otherwise advance the window by
the node length (`&self.nodes[node_size..]`, which panics when the
declared length exceeds the window) and yield the node. -/
def nodeIterStep (nodes : List Nat) (stop : StopCondition) : IterStep :=
  if nodes.isEmpty then .done
  else
    match DevicePathNode.from_ffi_ptr nodes with
    | none => .panicked
    | some node =>
      let stopHere :=
        match stop with
        | .anyEndNode => node.header.device_type == END
        | .endEntireNode => node.is_end_entire
        | .noMoreNodes => false
      if stopHere then .done
      else if node.header.length ≤ nodes.length then
        .yield node (nodes.drop node.header.length)
      else .panicked

/-- Runs `DevicePathNodeIterator` to exhaustion, collecting the yielded
nodes; `none` reports a panic (or fuel exhaustion, unreachable with the
fuel supplied by the wrappers). -/
def nodeIterToListAux : Nat → List Nat → StopCondition → Option (List DevicePathNode)
  | 0, _, _ => none
  | fuel + 1, nodes, stop =>
    match nodeIterStep nodes stop with
    | .done => some []
    | .panicked => none
    | .yield node rest =>
      match nodeIterToListAux fuel rest stop with
      | some l => some (node :: l)
      | none => none

/-- Collects a node iteration over a byte window. -/
def nodeIterToList (nodes : List Nat) (stop : StopCondition) : Option (List DevicePathNode) :=
  nodeIterToListAux (nodes.length + 1) nodes stop

/-- `DevicePath::node_iter`: whole-path node iteration over the path
bytes, stopping at the END/END_ENTIRE node without yielding it. -/
def DevicePath.nodeIterList (data : List Nat) : Option (List DevicePathNode) :=
  nodeIterToList data .endEntireNode

/-- `DevicePathInstance::node_iter`: node iteration over one instance,
stopping at any END-typed node without yielding it. -/
def DevicePathInstance.nodeIterList (data : List Nat) : Option (List DevicePathNode) :=
  nodeIterToList data .anyEndNode

/-- The loop body of `DevicePath::size_in_bytes_from_slice`: decode one
node with the safe constructor, accumulate its length, fail with
`InvalidLength` as soon as the running total exceeds the length of the
originally supplied slice, stop successfully at the END/END_ENTIRE node,
otherwise drop the consumed bytes and continue. -/
def sizeInBytesFromSliceAux : Nat → List Nat → Nat → Nat → DecodeResult Nat
  | 0, _, _, _ => .panicked
  | fuel + 1, bytes, maxSize, acc =>
    match nodeTryFrom bytes with
    | .err e => .err e
    | .panicked => .panicked
    | .ok node =>
      if maxSize < acc + node.header.length then .err .InvalidLength
      else if node.is_end_entire then .ok (acc + node.header.length)
      else sizeInBytesFromSliceAux fuel (bytes.drop node.header.length) maxSize
        (acc + node.header.length)

/-- `DevicePath::size_in_bytes_from_slice`: bounds-checked total-size
computation over a byte slice. -/
def DevicePath.size_in_bytes_from_slice (bytes : List Nat) : DecodeResult Nat :=
  sizeInBytesFromSliceAux (bytes.length + 1) bytes bytes.length 0

/-- `DevicePath::size_in_bytes_from_ptr`: trusted total-size computation.
It decodes nodes with the trusted constructor and accumulates lengths
until the first END/END_ENTIRE node, with no bounds check; `none` models
a panic or a walk that never finds a terminator (the fuel runs out). -/
def sizeInBytesFromPtrAux : Nat → List Nat → Nat → Option Nat
  | 0, _, _ => none
  | fuel + 1, bytes, acc =>
    match DevicePathNode.from_ffi_ptr bytes with
    | none => none
    | some node =>
      if node.is_end_entire then some (acc + node.header.length)
      else sizeInBytesFromPtrAux fuel (bytes.drop node.header.length) (acc + node.header.length)

/-- `impl TryFrom<&[u8]> for &DevicePath`: computes the bounds-checked
size and views exactly that prefix of the slice as the path bytes. -/
def DevicePath.tryFromBytes (bytes : List Nat) : DecodeResult (List Nat) :=
  match DevicePath.size_in_bytes_from_slice bytes with
  | .ok len => .ok (bytes.take len)
  | .err e => .err e
  | .panicked => .panicked

/-- The measuring loop of `DevicePathInstanceIterator::next`: iterate
nodes with the `noMoreNodes` policy, accumulating lengths up to and
including the first END-typed node. When the window is exhausted without
an END node the loop simply ends with the accumulated total. -/
def instanceSizeAux : Nat → List Nat → Nat → Option Nat
  | 0, _, _ => none
  | fuel + 1, nodes, acc =>
    match nodeIterStep nodes .noMoreNodes with
    | .done => some acc
    | .panicked => none
    | .yield node rest =>
      if node.header.device_type == END then some (acc + node.header.length)
      else instanceSizeAux fuel rest (acc + node.header.length)

/-- One call to `DevicePathInstanceIterator::next` on a remaining window:
measure the instance (terminator included), split the window there
(`split_at`, which panics past the end), yield the head as the instance
and keep the rest, or clear the iterator when the rest is empty. -/
def instanceIterNext (remaining : List Nat) : Option (List Nat × Option (List Nat)) :=
  match instanceSizeAux (remaining.length + 1) remaining 0 with
  | none => none
  | some sz =>
    if sz ≤ remaining.length then
      some (remaining.take sz, if (remaining.drop sz).isEmpty then none else some (remaining.drop sz))
    else none

/-- Runs `DevicePathInstanceIterator` to exhaustion, collecting the byte
extents of the yielded instances. -/
def instanceIterToListAux : Nat → List Nat → Option (List (List Nat))
  | 0, _ => none
  | fuel + 1, remaining =>
    match instanceIterNext remaining with
    | none => none
    | some (head, none) => some [head]
    | some (head, some rest) =>
      match instanceIterToListAux fuel rest with
      | some t => some (head :: t)
      | none => none

/-- `DevicePath::instance_iter` collected to a list of instance extents. -/
def instanceIterToList (data : List Nat) : Option (List (List Nat)) :=
  instanceIterToListAux (data.length + 1) data

/-- `DevicePath::to_boxed` / `ToOwned`: an owned byte-for-byte copy of
the path bytes (`self.data.to_owned()`). -/
def DevicePath.toBoxed (data : List Nat) : List Nat := data.map id

/-- `DevicePathInstance::to_boxed`: an owned byte-for-byte copy of the
instance bytes. -/
def DevicePathInstance.toBoxed (data : List Nat) : List Nat := data.map id

/-- `impl PartialEq for DevicePath`: structural equality of the byte
contents. -/
def DevicePath.eqBytes (a b : List Nat) : Bool := a == b

/-- Modelled from the spec: the specific-node conversion registry entry
for END/END_INSTANCE (`impl TryFrom<&DevicePathNode> for &end::Instance`
in the generated `device_path_gen` module, which is not among the sources
under review). Per the spec, a tag mismatch fails with `DifferentType`;
matching tags with the wrong payload shape fail with `InvalidLength` (an
END node carries no payload, so its declared length is exactly the 4
header bytes); otherwise the conversion succeeds. -/
def endInstanceTryFrom (n : DevicePathNode) : Except NodeConversionError Unit :=
  if n.header.device_type = END ∧ n.header.sub_type = END_INSTANCE then
    if n.header.length = 4 then .ok () else .error .InvalidLength
  else .error .DifferentType

/-- Modelled from the spec: the specific-node conversion registry entry
for END/END_ENTIRE (`impl TryFrom<&DevicePathNode> for &end::Entire` in
the generated `device_path_gen` module, which is not among the sources
under review), with the same shape as the END/END_INSTANCE entry. -/
def endEntireTryFrom (n : DevicePathNode) : Except NodeConversionError Unit :=
  if n.header.device_type = END ∧ n.header.sub_type = END_ENTIRE then
    if n.header.length = 4 then .ok () else .error .InvalidLength
  else .error .DifferentType

/-! ## Well-formed inputs

`RawNode` is an abstract node (tags plus payload); `encodeNode` is the
byte layout the source expects, identical to the `add_node` helper of the
module tests: type byte, subtype byte, the two little-endian bytes of
`4 + payload.length`, then the payload. -/

/-- An abstract device-path element: two tags and a payload. -/
structure RawNode where
  device_type : Nat
  sub_type : Nat
  data : List Nat
  deriving DecidableEq, Repr

/-- Declared length of an abstract element: header plus payload. -/
def RawNode.len (n : RawNode) : Nat := 4 + n.data.length

/-- Byte encoding of one element (the layout of `add_node` in the module
tests: tag, subtag, u16 little-endian length, payload). -/
def encodeNode (n : RawNode) : List Nat :=
  n.device_type :: n.sub_type :: (n.len % 256) :: (n.len / 256) :: n.data

/-- The node view the parser produces for an encoded element. -/
def RawNode.toNode (n : RawNode) : DevicePathNode :=
  { header := { device_type := n.device_type, sub_type := n.sub_type, length := n.len }
    data := n.data }

/-- The element is an END/END_ENTIRE terminator. -/
def RawNode.isEndEntireRaw (n : RawNode) : Prop :=
  n.device_type = END ∧ n.sub_type = END_ENTIRE

/-- Concatenated encoding of a list of elements. -/
def encodeNodes : List RawNode → List Nat
  | [] => []
  | n :: ns => encodeNode n ++ encodeNodes ns

/-- Sum of the declared lengths of a list of elements. -/
def nodesSize : List RawNode → Nat
  | [] => 0
  | n :: ns => n.len + nodesSize ns

/-- An abstract instance: interior elements plus its own terminator. -/
structure RawInstance where
  nodes : List RawNode
  term : RawNode
  deriving DecidableEq, Repr

/-- Byte encoding of one instance, terminator included. -/
def encodeInstance (i : RawInstance) : List Nat :=
  encodeNodes i.nodes ++ encodeNode i.term

/-- Concatenated encoding of a list of instances. -/
def encodeInstances : List RawInstance → List Nat
  | [] => []
  | i :: is => encodeInstance i ++ encodeInstances is

/-- A structurally well-formed instance: interior elements are not
END-typed, and the final element is END-typed (either subtype). -/
def RawInstance.Wf (i : RawInstance) : Prop :=
  (∀ n ∈ i.nodes, n.device_type ≠ END) ∧ i.term.device_type = END

instance (n : RawNode) : Decidable n.isEndEntireRaw := by
  unfold RawNode.isEndEntireRaw
  infer_instance

instance (i : RawInstance) : Decidable i.Wf := by
  unfold RawInstance.Wf
  infer_instance

/-- The concrete two-instance test buffer of the module tests
(`create_raw_device_path`), expressed with the same builder. -/
def testRawNodes : List RawNode :=
  [ { device_type := 0xa0, sub_type := 0xb0, data := [10, 11] },
    { device_type := 0xa1, sub_type := 0xb1, data := [20, 21, 22, 23] },
    { device_type := END, sub_type := END_INSTANCE, data := [] },
    { device_type := 0xa2, sub_type := 0xb2, data := [30, 31] },
    { device_type := 0xa3, sub_type := 0xb3, data := [40, 41, 42, 43] } ]

/-- The END/END_ENTIRE terminator of the test buffer. -/
def testTerm : RawNode := { device_type := END, sub_type := END_ENTIRE, data := [] }

/-- The raw bytes of the two-instance test device path. -/
def testPathBytes : List Nat := encodeNodes testRawNodes ++ encodeNode testTerm

/-- First instance of the test path: two vendor nodes plus its
END/END_INSTANCE terminator. -/
def instOne : RawInstance :=
  { nodes := [ { device_type := 0xa0, sub_type := 0xb0, data := [10, 11] },
               { device_type := 0xa1, sub_type := 0xb1, data := [20, 21, 22, 23] } ],
    term := { device_type := END, sub_type := END_INSTANCE, data := [] } }

/-- Second instance of the test path: two vendor nodes plus the
END/END_ENTIRE terminator. -/
def instTwo : RawInstance :=
  { nodes := [ { device_type := 0xa2, sub_type := 0xb2, data := [30, 31] },
               { device_type := 0xa3, sub_type := 0xb3, data := [40, 41, 42, 43] } ],
    term := { device_type := END, sub_type := END_ENTIRE, data := [] } }

/-- Number of END/END_INSTANCE terminator elements among the instance
terminators of a multi-instance path. -/
def countEndInstanceTerms (is : List RawInstance) : Nat :=
  (is.filter (fun i => i.term.sub_type == END_INSTANCE)).length

/-- The node view produced when the trusted constructor reads the head of
a window with a complete, non-underflowing header. -/
def decodeNodeAt (bytes : List Nat) : DevicePathNode :=
  { header := readHeader bytes, data := (bytes.drop 4).take (declaredLen bytes - 4) }

/-- Byte-level well-formedness of a device-path extent, as established by
the bounds-checked size computation for the prefix it accepts: a chain of
elements, each with a declared length of at least 4 that fits in the
remaining bytes, whose last element is END/END_ENTIRE and consumes the
extent exactly. -/
inductive WfPathBytes : List Nat → Prop
  | last (bytes : List Nat) (h4 : 4 ≤ declaredLen bytes)
      (hlen : declaredLen bytes = bytes.length)
      (ht : typeTag bytes = END) (hs : subTag bytes = END_ENTIRE) :
      WfPathBytes bytes
  | cons (bytes : List Nat) (h4 : 4 ≤ declaredLen bytes)
      (hle : declaredLen bytes ≤ bytes.length)
      (hnot : ¬ (typeTag bytes = END ∧ subTag bytes = END_ENTIRE))
      (rest : WfPathBytes (bytes.drop (declaredLen bytes))) :
      WfPathBytes bytes

/-- Byte-level well-formedness of one instance extent: a chain of
elements with in-bounds declared lengths of at least 4, in which an
END-typed element eventually occurs. -/
inductive WfInstBytes : List Nat → Prop
  | last (bytes : List Nat) (h4 : 4 ≤ declaredLen bytes)
      (hle : declaredLen bytes ≤ bytes.length)
      (ht : typeTag bytes = END) : WfInstBytes bytes
  | cons (bytes : List Nat) (h4 : 4 ≤ declaredLen bytes)
      (hle : declaredLen bytes ≤ bytes.length)
      (ht : typeTag bytes ≠ END)
      (rest : WfInstBytes (bytes.drop (declaredLen bytes))) :
      WfInstBytes bytes

end DevicePathSpec


namespace DevicePathSpec

/-! ## Decoding an encoded element -/

theorem length_encodeNode (n : RawNode) : (encodeNode n).length = n.len := by
  simp [encodeNode, RawNode.len]
  omega

theorem four_le_len (n : RawNode) : 4 ≤ n.len := by
  simp [RawNode.len]

theorem typeTag_encode (n : RawNode) (rest : List Nat) :
    typeTag (encodeNode n ++ rest) = n.device_type := rfl

theorem subTag_encode (n : RawNode) (rest : List Nat) :
    subTag (encodeNode n ++ rest) = n.sub_type := rfl

theorem declaredLen_encode (n : RawNode) (rest : List Nat) :
    declaredLen (encodeNode n ++ rest) = n.len := by
  show n.len % 256 + 256 * (n.len / 256) = n.len
  omega

theorem readHeader_encode (n : RawNode) (rest : List Nat) :
    readHeader (encodeNode n ++ rest) = n.toNode.header := by
  simp [readHeader, RawNode.toNode, typeTag_encode, subTag_encode, declaredLen_encode]

theorem drop_four_encode (n : RawNode) (rest : List Nat) :
    (encodeNode n ++ rest).drop 4 = n.data ++ rest := rfl

theorem from_ffi_ptr_encode (n : RawNode) (rest : List Nat) :
    DevicePathNode.from_ffi_ptr (encodeNode n ++ rest) = some n.toNode := by
  have hlen : (encodeNode n ++ rest).length = n.len + rest.length := by
    simp [length_encodeNode]
  have hdl := declaredLen_encode n rest
  have h4 := four_le_len n
  simp only [DevicePathNode.from_ffi_ptr, hdl, hlen, drop_four_encode]
  rw [if_pos ⟨by omega, h4⟩]
  have hdata : n.data.length = n.len - 4 := by simp [RawNode.len]
  rw [List.take_left' hdata, readHeader_encode]
  rfl

theorem toNode_end_entire_iff (n : RawNode) :
    n.toNode.is_end_entire = true ↔ n.isEndEntireRaw := by
  simp [DevicePathNode.is_end_entire, RawNode.toNode, RawNode.isEndEntireRaw]

theorem encode_append_ne_nil (n : RawNode) (rest : List Nat) :
    ((encodeNode n ++ rest).isEmpty) = false := by
  simp [encodeNode]

theorem toNode_header_length (n : RawNode) : n.toNode.header.length = n.len := rfl

theorem nodeIterStep_advance (n : RawNode) (rest : List Nat) :
    (if n.toNode.header.length ≤ (encodeNode n ++ rest).length then
       IterStep.yield n.toNode ((encodeNode n ++ rest).drop n.toNode.header.length)
     else IterStep.panicked) = IterStep.yield n.toNode rest := by
  have hlen : (encodeNode n ++ rest).length = n.len + rest.length := by
    simp [length_encodeNode]
  rw [if_pos (by rw [toNode_header_length, hlen]; omega)]
  rw [toNode_header_length, List.drop_left' (length_encodeNode n)]

theorem nodeIterStep_yield_noMore (n : RawNode) (rest : List Nat) :
    nodeIterStep (encodeNode n ++ rest) .noMoreNodes = .yield n.toNode rest := by
  simp only [nodeIterStep, encode_append_ne_nil, Bool.false_eq_true, if_false,
    from_ffi_ptr_encode, if_neg (by simp : ¬ (false = true))]
  exact nodeIterStep_advance n rest

theorem nodeIterStep_yield_endEntire (n : RawNode) (rest : List Nat)
    (h : ¬ n.isEndEntireRaw) :
    nodeIterStep (encodeNode n ++ rest) .endEntireNode = .yield n.toNode rest := by
  have hb : n.toNode.is_end_entire = false := by
    cases hb : n.toNode.is_end_entire
    · rfl
    · exact absurd ((toNode_end_entire_iff n).mp hb) h
  simp only [nodeIterStep, encode_append_ne_nil, Bool.false_eq_true, if_false,
    from_ffi_ptr_encode, hb]
  exact nodeIterStep_advance n rest

theorem nodeIterStep_done_endEntire (n : RawNode) (rest : List Nat)
    (h : n.isEndEntireRaw) :
    nodeIterStep (encodeNode n ++ rest) .endEntireNode = .done := by
  have hb : n.toNode.is_end_entire = true := (toNode_end_entire_iff n).mpr h
  simp only [nodeIterStep, encode_append_ne_nil, Bool.false_eq_true, if_false,
    from_ffi_ptr_encode, hb]
  simp

theorem toNode_device_type (n : RawNode) : n.toNode.header.device_type = n.device_type := rfl

theorem nodeIterStep_yield_anyEnd (n : RawNode) (rest : List Nat)
    (h : n.device_type ≠ END) :
    nodeIterStep (encodeNode n ++ rest) .anyEndNode = .yield n.toNode rest := by
  have hb : (n.toNode.header.device_type == END) = false := by
    rw [toNode_device_type]
    exact beq_false_of_ne h
  simp only [nodeIterStep, encode_append_ne_nil, Bool.false_eq_true, if_false,
    from_ffi_ptr_encode, hb]
  exact nodeIterStep_advance n rest

theorem nodeIterStep_done_anyEnd (n : RawNode) (rest : List Nat)
    (h : n.device_type = END) :
    nodeIterStep (encodeNode n ++ rest) .anyEndNode = .done := by
  have hb : (n.toNode.header.device_type == END) = true := by
    rw [toNode_device_type]
    exact beq_iff_eq.mpr h
  simp only [nodeIterStep, encode_append_ne_nil, Bool.false_eq_true, if_false,
    from_ffi_ptr_encode, hb]
  simp

/-! ## Iterating over encoded well-formed paths -/

theorem length_encodeNodes (ns : List RawNode) :
    (encodeNodes ns).length = nodesSize ns := by
  induction ns with
  | nil => rfl
  | cons n ns ih => simp [encodeNodes, nodesSize, length_encodeNode, ih]

theorem count_le_length_encodeNodes (ns : List RawNode) :
    ns.length ≤ (encodeNodes ns).length := by
  induction ns with
  | nil => simp [encodeNodes]
  | cons n ns ih =>
    have h := length_encodeNode n
    have h4 := four_le_len n
    simp only [encodeNodes, List.length_append, List.length_cons]
    omega

theorem nodeIterToListAux_endEntire (ns : List RawNode) (term : RawNode)
    (hns : ∀ n ∈ ns, ¬ n.isEndEntireRaw) (hterm : term.isEndEntireRaw) :
    ∀ fuel, ns.length < fuel →
      nodeIterToListAux fuel (encodeNodes ns ++ encodeNode term) .endEntireNode
        = some (ns.map RawNode.toNode) := by
  induction ns with
  | nil =>
    intro fuel hf
    match fuel, hf with
    | fuel + 1, _ =>
      have hstep := nodeIterStep_done_endEntire term [] hterm
      rw [List.append_nil] at hstep
      simp [encodeNodes, nodeIterToListAux, hstep]
  | cons n ns ih =>
    intro fuel hf
    match fuel, hf with
    | fuel + 1, hf =>
      have hrw : encodeNodes (n :: ns) ++ encodeNode term
          = encodeNode n ++ (encodeNodes ns ++ encodeNode term) := by
        simp [encodeNodes]
      have hstep := nodeIterStep_yield_endEntire n (encodeNodes ns ++ encodeNode term)
        (hns n (List.mem_cons_self n ns))
      have hih := ih (fun m hm => hns m (List.mem_cons_of_mem n hm)) fuel
        (by simpa using Nat.lt_of_succ_lt_succ hf)
      simp [nodeIterToListAux, hrw, hstep, hih]

theorem nodeIterToListAux_anyEnd (ns : List RawNode) (term : RawNode)
    (hns : ∀ n ∈ ns, n.device_type ≠ END) (hterm : term.device_type = END) :
    ∀ fuel, ns.length < fuel →
      nodeIterToListAux fuel (encodeNodes ns ++ encodeNode term) .anyEndNode
        = some (ns.map RawNode.toNode) := by
  induction ns with
  | nil =>
    intro fuel hf
    match fuel, hf with
    | fuel + 1, _ =>
      have hstep := nodeIterStep_done_anyEnd term [] hterm
      rw [List.append_nil] at hstep
      simp [encodeNodes, nodeIterToListAux, hstep]
  | cons n ns ih =>
    intro fuel hf
    match fuel, hf with
    | fuel + 1, hf =>
      have hrw : encodeNodes (n :: ns) ++ encodeNode term
          = encodeNode n ++ (encodeNodes ns ++ encodeNode term) := by
        simp [encodeNodes]
      have hstep := nodeIterStep_yield_anyEnd n (encodeNodes ns ++ encodeNode term)
        (hns n (List.mem_cons_self n ns))
      have hih := ih (fun m hm => hns m (List.mem_cons_of_mem n hm)) fuel
        (by simpa using Nat.lt_of_succ_lt_succ hf)
      simp [nodeIterToListAux, hrw, hstep, hih]

theorem nodeIterList_path_encode (ns : List RawNode) (term : RawNode)
    (hns : ∀ n ∈ ns, ¬ n.isEndEntireRaw) (hterm : term.isEndEntireRaw) :
    DevicePath.nodeIterList (encodeNodes ns ++ encodeNode term)
      = some (ns.map RawNode.toNode) := by
  apply nodeIterToListAux_endEntire ns term hns hterm
  have h1 := count_le_length_encodeNodes ns
  simp only [List.length_append]
  omega

theorem nodeIterList_instance_encode (ns : List RawNode) (term : RawNode)
    (hns : ∀ n ∈ ns, n.device_type ≠ END) (hterm : term.device_type = END) :
    DevicePathInstance.nodeIterList (encodeNodes ns ++ encodeNode term)
      = some (ns.map RawNode.toNode) := by
  apply nodeIterToListAux_anyEnd ns term hns hterm
  have h1 := count_le_length_encodeNodes ns
  simp only [List.length_append]
  omega

/-! ## Size computation over encoded well-formed paths -/

theorem nodeTryFrom_encode (n : RawNode) (rest : List Nat) :
    nodeTryFrom (encodeNode n ++ rest) = .ok n.toNode := by
  have hlen : (encodeNode n ++ rest).length = n.len + rest.length := by
    simp [length_encodeNode]
  have h4 := four_le_len n
  simp only [nodeTryFrom, headerTryFrom,
    if_pos (show 4 ≤ (encodeNode n ++ rest).length by omega), readHeader_encode]
  rw [if_pos (by rw [toNode_header_length, hlen]; omega)]
  rw [from_ffi_ptr_encode]

theorem sizeSliceAux_encode (ns : List RawNode) (term : RawNode)
    (hns : ∀ n ∈ ns, ¬ n.isEndEntireRaw) (hterm : term.isEndEntireRaw) :
    ∀ fuel rest maxSize acc, ns.length < fuel →
      acc + (nodesSize ns + term.len) ≤ maxSize →
      sizeInBytesFromSliceAux fuel (encodeNodes ns ++ encodeNode term ++ rest) maxSize acc
        = .ok (acc + (nodesSize ns + term.len)) := by
  induction ns with
  | nil =>
    intro fuel rest maxSize acc hf hmax
    match fuel, hf with
    | fuel + 1, _ =>
      have hrw : encodeNodes [] ++ encodeNode term ++ rest = encodeNode term ++ rest := by
        simp [encodeNodes]
      have hend : term.toNode.is_end_entire = true := (toNode_end_entire_iff term).mpr hterm
      simp only [sizeInBytesFromSliceAux, hrw, nodeTryFrom_encode, toNode_header_length]
      rw [if_neg (by simp [nodesSize] at hmax; omega), if_pos hend]
      simp [nodesSize]
  | cons n ns ih =>
    intro fuel rest maxSize acc hf hmax
    match fuel, hf with
    | fuel + 1, hf =>
      have hrw : encodeNodes (n :: ns) ++ encodeNode term ++ rest
          = encodeNode n ++ (encodeNodes ns ++ encodeNode term ++ rest) := by
        simp [encodeNodes]
      have hnotEnd : n.toNode.is_end_entire = false := by
        cases hb : n.toNode.is_end_entire
        · rfl
        · exact absurd ((toNode_end_entire_iff n).mp hb) (hns n (List.mem_cons_self n ns))
      have hsz : nodesSize (n :: ns) = n.len + nodesSize ns := rfl
      simp only [sizeInBytesFromSliceAux, hrw, nodeTryFrom_encode, toNode_header_length]
      rw [if_neg (by rw [hsz] at hmax; omega), if_neg (by simp [hnotEnd])]
      have hdrop : (encodeNode n ++ (encodeNodes ns ++ encodeNode term ++ rest)).drop n.len
          = encodeNodes ns ++ encodeNode term ++ rest :=
        List.drop_left' (length_encodeNode n)
      rw [hdrop]
      have hih := ih (fun m hm => hns m (List.mem_cons_of_mem n hm)) fuel rest maxSize
        (acc + n.len) (by simpa using Nat.lt_of_succ_lt_succ hf) (by rw [hsz] at hmax; omega)
      rw [hih]
      rw [hsz]
      congr 1
      omega

theorem sizePtrAux_encode (ns : List RawNode) (term : RawNode)
    (hns : ∀ n ∈ ns, ¬ n.isEndEntireRaw) (hterm : term.isEndEntireRaw) :
    ∀ fuel rest acc, ns.length < fuel →
      sizeInBytesFromPtrAux fuel (encodeNodes ns ++ encodeNode term ++ rest) acc
        = some (acc + (nodesSize ns + term.len)) := by
  induction ns with
  | nil =>
    intro fuel rest acc hf
    match fuel, hf with
    | fuel + 1, _ =>
      have hrw : encodeNodes [] ++ encodeNode term ++ rest = encodeNode term ++ rest := by
        simp [encodeNodes]
      have hend : term.toNode.is_end_entire = true := (toNode_end_entire_iff term).mpr hterm
      simp only [sizeInBytesFromPtrAux, hrw, from_ffi_ptr_encode, toNode_header_length]
      rw [if_pos hend]
      simp [nodesSize]
  | cons n ns ih =>
    intro fuel rest acc hf
    match fuel, hf with
    | fuel + 1, hf =>
      have hrw : encodeNodes (n :: ns) ++ encodeNode term ++ rest
          = encodeNode n ++ (encodeNodes ns ++ encodeNode term ++ rest) := by
        simp [encodeNodes]
      have hnotEnd : n.toNode.is_end_entire = false := by
        cases hb : n.toNode.is_end_entire
        · rfl
        · exact absurd ((toNode_end_entire_iff n).mp hb) (hns n (List.mem_cons_self n ns))
      simp only [sizeInBytesFromPtrAux, hrw, from_ffi_ptr_encode, toNode_header_length]
      rw [if_neg (by simp [hnotEnd])]
      have hdrop : (encodeNode n ++ (encodeNodes ns ++ encodeNode term ++ rest)).drop n.len
          = encodeNodes ns ++ encodeNode term ++ rest :=
        List.drop_left' (length_encodeNode n)
      rw [hdrop]
      have hih := ih (fun m hm => hns m (List.mem_cons_of_mem n hm)) fuel rest
        (acc + n.len) (by simpa using Nat.lt_of_succ_lt_succ hf)
      rw [hih]
      have hsz : nodesSize (n :: ns) = n.len + nodesSize ns := rfl
      rw [hsz]
      congr 1
      omega

theorem size_in_bytes_from_slice_encode (ns : List RawNode) (term : RawNode)
    (rest : List Nat)
    (hns : ∀ n ∈ ns, ¬ n.isEndEntireRaw) (hterm : term.isEndEntireRaw) :
    DevicePath.size_in_bytes_from_slice (encodeNodes ns ++ encodeNode term ++ rest)
      = .ok (nodesSize ns + term.len) := by
  have h := sizeSliceAux_encode ns term hns hterm
    ((encodeNodes ns ++ encodeNode term ++ rest).length + 1) rest
    ((encodeNodes ns ++ encodeNode term ++ rest).length) 0
    (by
      have h1 := count_le_length_encodeNodes ns
      simp only [List.length_append]
      omega)
    (by
      simp only [List.length_append, length_encodeNodes, length_encodeNode]
      omega)
  simpa [DevicePath.size_in_bytes_from_slice] using h

/-! ## Instance iteration over encoded well-formed paths -/

theorem instanceSizeAux_encode (ns : List RawNode) (term : RawNode)
    (hns : ∀ n ∈ ns, n.device_type ≠ END) (hterm : term.device_type = END) :
    ∀ fuel rest acc, ns.length < fuel →
      instanceSizeAux fuel (encodeNodes ns ++ encodeNode term ++ rest) acc
        = some (acc + (nodesSize ns + term.len)) := by
  induction ns with
  | nil =>
    intro fuel rest acc hf
    match fuel, hf with
    | fuel + 1, _ =>
      have hrw : encodeNodes [] ++ encodeNode term ++ rest = encodeNode term ++ rest := by
        simp [encodeNodes]
      have hstep := nodeIterStep_yield_noMore term rest
      have hbeq : (term.toNode.header.device_type == END) = true := by
        rw [toNode_device_type]
        exact beq_iff_eq.mpr hterm
      simp only [instanceSizeAux, hrw, hstep, toNode_header_length, hbeq, if_pos rfl]
      simp [nodesSize]
  | cons n ns ih =>
    intro fuel rest acc hf
    match fuel, hf with
    | fuel + 1, hf =>
      have hrw : encodeNodes (n :: ns) ++ encodeNode term ++ rest
          = encodeNode n ++ (encodeNodes ns ++ encodeNode term ++ rest) := by
        simp [encodeNodes]
      have hstep := nodeIterStep_yield_noMore n (encodeNodes ns ++ encodeNode term ++ rest)
      have hbeq : (n.toNode.header.device_type == END) = false := by
        rw [toNode_device_type]
        exact beq_false_of_ne (hns n (List.mem_cons_self n ns))
      simp only [instanceSizeAux, hrw, hstep, toNode_header_length, hbeq,
        Bool.false_eq_true, if_false]
      have hih := ih (fun m hm => hns m (List.mem_cons_of_mem n hm)) fuel rest
        (acc + n.len) (by simpa using Nat.lt_of_succ_lt_succ hf)
      rw [hih]
      have hsz : nodesSize (n :: ns) = n.len + nodesSize ns := rfl
      rw [hsz]
      congr 1
      omega

theorem length_encodeInstance (i : RawInstance) :
    (encodeInstance i).length = nodesSize i.nodes + i.term.len := by
  simp [encodeInstance, length_encodeNodes, length_encodeNode]

theorem encodeInstance_ne_nil (i : RawInstance) : encodeInstance i ≠ [] := by
  intro h
  have := congrArg List.length h
  rw [length_encodeInstance] at this
  have h4 := four_le_len i.term
  simp at this
  omega

theorem instanceIterNext_encode (i : RawInstance) (rest : List Nat) (h : i.Wf) :
    instanceIterNext (encodeInstance i ++ rest)
      = some (encodeInstance i, if rest.isEmpty then none else some rest) := by
  have hassoc : encodeInstance i ++ rest
      = encodeNodes i.nodes ++ encodeNode i.term ++ rest := by
    simp [encodeInstance]
  have hsz0 := instanceSizeAux_encode i.nodes i.term h.1 h.2
    ((encodeInstance i ++ rest).length + 1) rest 0
    (by
      have h1 := count_le_length_encodeNodes i.nodes
      simp only [hassoc, List.length_append]
      omega)
  rw [Nat.zero_add, ← hassoc] at hsz0
  have hlen : nodesSize i.nodes + i.term.len = (encodeInstance i).length :=
    (length_encodeInstance i).symm
  rw [hlen] at hsz0
  simp only [instanceIterNext, hsz0]
  rw [if_pos (by simp)]
  rw [List.take_left, List.drop_left]

theorem instanceIterToListAux_encode (is : List RawInstance) :
    ∀ fuel, is ≠ [] → (∀ i ∈ is, i.Wf) → is.length ≤ fuel →
      instanceIterToListAux fuel (encodeInstances is) = some (is.map encodeInstance) := by
  induction is with
  | nil => intro fuel hne; exact absurd rfl hne
  | cons i tl ih =>
    intro fuel hne hwf hf
    match fuel, hf with
    | fuel + 1, hf =>
      have hi : i.Wf := hwf i (List.mem_cons_self i tl)
      cases tl with
      | nil =>
        have hrw : encodeInstances [i] = encodeInstance i ++ [] := by
          simp [encodeInstances]
        have hnext := instanceIterNext_encode i [] hi
        simp at hnext
        simp [instanceIterToListAux, hrw, hnext]
      | cons j tl2 =>
        have hrw : encodeInstances (i :: j :: tl2)
            = encodeInstance i ++ encodeInstances (j :: tl2) := rfl
        have hrest_ne : encodeInstances (j :: tl2) ≠ [] := by
          have : encodeInstances (j :: tl2) = encodeInstance j ++ encodeInstances tl2 := rfl
          rw [this]
          intro hcontra
          exact encodeInstance_ne_nil j (List.append_eq_nil.mp hcontra).1
        have hnext := instanceIterNext_encode i (encodeInstances (j :: tl2)) hi
        rw [if_neg (by simpa [List.isEmpty_iff] using hrest_ne)] at hnext
        have hih := ih fuel (by simp) (fun m hm => hwf m (List.mem_cons_of_mem i hm))
          (by simp only [List.length_cons] at hf ⊢; omega)
        simp [instanceIterToListAux, hrw, hnext, hih]

theorem count_le_length_encodeInstances (is : List RawInstance) :
    is.length ≤ (encodeInstances is).length := by
  induction is with
  | nil => simp [encodeInstances]
  | cons i tl ih =>
    have h := length_encodeInstance i
    have h4 := four_le_len i.term
    simp only [encodeInstances, List.length_append, List.length_cons]
    omega

theorem instanceIterToList_encode (is : List RawInstance)
    (hne : is ≠ []) (hwf : ∀ i ∈ is, i.Wf) :
    instanceIterToList (encodeInstances is) = some (is.map encodeInstance) := by
  apply instanceIterToListAux_encode is _ hne hwf
  have := count_le_length_encodeInstances is
  omega

theorem nodesSize_append (ns ms : List RawNode) :
    nodesSize (ns ++ ms) = nodesSize ns + nodesSize ms := by
  induction ns with
  | nil => simp [nodesSize]
  | cons n ns ih => simp [nodesSize, ih]; omega

/-! ## Claims -/

/-- C1 (code_bug evidence): a 4-byte slice whose header declares length 2
(smaller than the 4-byte header) makes both safe decoding operations
reach the `length - 4` underflow in `from_ffi_ptr` and panic, instead of
returning the InvalidLength decode error required by the specification. -/
theorem c1_underflow_panics :
    nodeTryFrom [1, 1, 2, 0] = .panicked ∧
    DevicePath.size_in_bytes_from_slice [1, 1, 2, 0] = .panicked := by
  constructor <;> rfl

/-- C2 counterexample: on the two-instance test buffer, whole-list node
iteration yields five elements, not the four non-terminator elements the
claim states: the interior END/END_INSTANCE terminator is yielded too. -/
theorem c2_counterexample :
    (DevicePath.nodeIterList testPathBytes).map List.length = some 5 ∧
    (DevicePath.nodeIterList testPathBytes).map List.length ≠ some 4 := by
  constructor
  · rfl
  · decide

/-- C2 amended: on the two-instance test buffer, the safe constructor
accepts the whole 36-byte buffer, whole-list node iteration yields the
five elements before the END/END_ENTIRE terminator in order (the four
non-terminator elements and the interior END/END_INSTANCE element), the
computed total size is 36 bytes, and instance iteration yields exactly
the two 18-byte instances, each containing exactly two nodes when
node-iterated. -/
theorem c2_amended :
    DevicePath.tryFromBytes testPathBytes = .ok testPathBytes ∧
    DevicePath.nodeIterList testPathBytes = some (testRawNodes.map RawNode.toNode) ∧
    (testRawNodes.map RawNode.toNode).length = 5 ∧
    DevicePath.size_in_bytes_from_slice testPathBytes = .ok 36 ∧
    instanceIterToList testPathBytes = some [encodeInstance instOne, encodeInstance instTwo] ∧
    (encodeInstance instOne).length = 18 ∧
    (encodeInstance instTwo).length = 18 ∧
    (DevicePathInstance.nodeIterList (encodeInstance instOne)).map List.length = some 2 ∧
    (DevicePathInstance.nodeIterList (encodeInstance instTwo)).map List.length = some 2 := by
  decide

/-- C3: for every well-formed device path (interior elements are not
END/END_ENTIRE, the final element is), embedded in memory or in any byte
slice with arbitrary trailing bytes, the trusted-pointer traversal and
the bounds-checked slice traversal both compute the sum of the declared
lengths of every element, terminator included. -/
theorem c3_size_agreement (ns : List RawNode) (term : RawNode) (rest : List Nat)
    (hns : ∀ n ∈ ns, ¬ n.isEndEntireRaw) (hterm : term.isEndEntireRaw) :
    (∀ fuel, ns.length < fuel →
      sizeInBytesFromPtrAux fuel (encodeNodes ns ++ encodeNode term ++ rest) 0
        = some (nodesSize (ns ++ [term]))) ∧
    DevicePath.size_in_bytes_from_slice (encodeNodes ns ++ encodeNode term ++ rest)
      = .ok (nodesSize (ns ++ [term])) := by
  have hsum : nodesSize (ns ++ [term]) = nodesSize ns + term.len := by
    rw [nodesSize_append]
    simp [nodesSize]
  constructor
  · intro fuel hf
    have h := sizePtrAux_encode ns term hns hterm fuel rest 0 hf
    rw [Nat.zero_add] at h
    rw [h, hsum]
  · rw [size_in_bytes_from_slice_encode ns term rest hns hterm, hsum]

/-- C3 witness: both size computations return 36 on the test path. -/
theorem c3_size_agreement_witness :
    sizeInBytesFromPtrAux 6 (encodeNodes testRawNodes ++ encodeNode testTerm ++ []) 0
      = some (nodesSize (testRawNodes ++ [testTerm])) ∧
    DevicePath.size_in_bytes_from_slice (encodeNodes testRawNodes ++ encodeNode testTerm ++ [])
      = .ok (nodesSize (testRawNodes ++ [testTerm])) := by
  have h := c3_size_agreement testRawNodes testTerm [] (by decide) (by decide)
  exact ⟨h.1 6 (by decide), h.2⟩

/-- C4: whole-path node iteration over a well-formed path yields exactly
the elements before the END/END_ENTIRE terminator, never the terminator
itself; node iteration over a well-formed single instance yields exactly
the elements before the instance terminator, never the terminator,
whichever END subtype it carries. -/
theorem c4_terminator_never_yielded (ns : List RawNode) (term : RawNode)
    (ms : List RawNode) (iterm : RawNode)
    (hns : ∀ n ∈ ns, ¬ n.isEndEntireRaw) (hterm : term.isEndEntireRaw)
    (hms : ∀ n ∈ ms, n.device_type ≠ END) (hiterm : iterm.device_type = END) :
    (DevicePath.nodeIterList (encodeNodes ns ++ encodeNode term)
        = some (ns.map RawNode.toNode) ∧
      ∀ nd ∈ ns.map RawNode.toNode, nd.is_end_entire = false) ∧
    (DevicePathInstance.nodeIterList (encodeNodes ms ++ encodeNode iterm)
        = some (ms.map RawNode.toNode) ∧
      ∀ nd ∈ ms.map RawNode.toNode, nd.header.device_type ≠ END) := by
  refine ⟨⟨nodeIterList_path_encode ns term hns hterm, ?_⟩,
    ⟨nodeIterList_instance_encode ms iterm hms hiterm, ?_⟩⟩
  · intro nd hnd
    obtain ⟨n, hn, rfl⟩ := List.mem_map.mp hnd
    cases hb : n.toNode.is_end_entire
    · rfl
    · exact absurd ((toNode_end_entire_iff n).mp hb) (hns n hn)
  · intro nd hnd
    obtain ⟨n, hn, rfl⟩ := List.mem_map.mp hnd
    rw [toNode_device_type]
    exact hms n hn

/-- C4 witness: instantiated on the test path and its first instance. -/
theorem c4_terminator_never_yielded_witness :
    DevicePath.nodeIterList (encodeNodes testRawNodes ++ encodeNode testTerm)
        = some (testRawNodes.map RawNode.toNode) ∧
    DevicePathInstance.nodeIterList (encodeNodes instOne.nodes ++ encodeNode instOne.term)
        = some (instOne.nodes.map RawNode.toNode) := by
  have h := c4_terminator_never_yielded testRawNodes testTerm instOne.nodes instOne.term
    (by decide) (by decide) (by decide) (by decide)
  exact ⟨h.1.1, h.2.1⟩

/-- C5: instance iteration over a well-formed multi-instance path whose
first N instance terminators are END/END_INSTANCE and whose last is
END/END_ENTIRE yields exactly the N+1 instances in order, and the byte
extent of every yielded instance ends with, and includes, the bytes of
its own terminator element. -/
theorem c5_instance_iteration (front : List RawInstance) (last : RawInstance)
    (hwf : ∀ i ∈ front ++ [last], i.Wf)
    (hfront : ∀ i ∈ front, i.term.sub_type = END_INSTANCE)
    (hlast : last.term.sub_type = END_ENTIRE) :
    instanceIterToList (encodeInstances (front ++ [last]))
      = some ((front ++ [last]).map encodeInstance) ∧
    ((front ++ [last]).map encodeInstance).length
      = countEndInstanceTerms (front ++ [last]) + 1 ∧
    ∀ i ∈ front ++ [last], ∃ pre, encodeInstance i = pre ++ encodeNode i.term := by
  refine ⟨instanceIterToList_encode _ (by simp) hwf, ?_, ?_⟩
  · have hkeep : front.filter (fun i => i.term.sub_type == END_INSTANCE) = front := by
      rw [List.filter_eq_self]
      intro i hi
      exact beq_iff_eq.mpr (hfront i hi)
    have hdroplast : [last].filter (fun i => i.term.sub_type == END_INSTANCE) = [] := by
      simp only [List.filter, hlast]
      rw [show (END_ENTIRE == END_INSTANCE) = false from rfl]
    simp only [countEndInstanceTerms, List.filter_append, hkeep, hdroplast,
      List.append_nil, List.length_map, List.length_append, List.length_cons,
      List.length_nil]
  · intro i _
    exact ⟨encodeNodes i.nodes, rfl⟩

/-- C5 witness: the two-instance test path yields its two instances. -/
theorem c5_instance_iteration_witness :
    instanceIterToList (encodeInstances ([instOne] ++ [instTwo]))
      = some (([instOne] ++ [instTwo]).map encodeInstance) ∧
    (([instOne] ++ [instTwo]).map encodeInstance).length
      = countEndInstanceTerms ([instOne] ++ [instTwo]) + 1 := by
  have h := c5_instance_iteration [instOne] instTwo
    (by decide) (by decide) (by decide)
  exact ⟨h.1, h.2.1⟩

/-- C8: duplicating a path or instance produces a byte-for-byte equal
copy (under the byte equality the code uses for PartialEq), and writing
a fresh byte into the copy leaves the original with its old bytes: the
mutated copy no longer equals the original. Heap separation of the copy
is expressed by the value semantics of the embedding, where to_boxed
rebuilds the byte sequence. -/
theorem c8_to_boxed_roundtrip (d inst : List Nat) (i v : Nat)
    (hi : i < d.length) (hv : v ≠ d.getD i 0) :
    DevicePath.eqBytes (DevicePath.toBoxed d) d = true ∧
    DevicePathInstance.toBoxed inst = inst ∧
    (DevicePath.toBoxed d).set i v ≠ d := by
  refine ⟨?_, ?_, ?_⟩
  · simp [DevicePath.eqBytes, DevicePath.toBoxed]
  · simp [DevicePathInstance.toBoxed]
  · intro hcontra
    have hmap : DevicePath.toBoxed d = d := by simp [DevicePath.toBoxed]
    rw [hmap] at hcontra
    have hval : (d.set i v).getD i 0 = v := by
      rw [List.getD_eq_getElem _ _ (by simpa using hi)]
      simp [List.getElem_set_self]
    rw [hcontra] at hval
    exact hv hval.symm

/-- C8 witness: instantiated on the test path bytes at index 0. -/
theorem c8_to_boxed_roundtrip_witness :
    DevicePath.eqBytes (DevicePath.toBoxed testPathBytes) testPathBytes = true ∧
    (DevicePath.toBoxed testPathBytes).set 0 7 ≠ testPathBytes := by
  have h := c8_to_boxed_roundtrip testPathBytes testPathBytes 0 7 (by decide) (by decide)
  exact ⟨h.1, h.2.2⟩

/-- C9 counterexample: a node carrying the (END, END_INSTANCE) tags but
a declared length of 5 (one payload byte) fails the shape check of the
conversion registry with InvalidLength, so conversion to the specific
end-of-instance variant does not succeed for every node with those tags. -/
theorem c9_counterexample :
    endInstanceTryFrom
        { header := { device_type := END, sub_type := END_INSTANCE, length := 5 }, data := [0] }
      = .error .InvalidLength ∧
    (Except.error NodeConversionError.InvalidLength : Except NodeConversionError Unit)
      ≠ .ok () := by
  refine ⟨rfl, ?_⟩
  intro h
  exact Except.noConfusion h

/-- C9 amended: for every generic node whose tags are
(END, END_INSTANCE), conversion to the specific end-of-instance variant
succeeds whenever the node has the correct END-node shape (declared
length 4, empty payload), and conversion of the same node to the
end-of-entire-path variant always fails with DifferentType. -/
theorem c9_amended (n : DevicePathNode)
    (ht : n.header.device_type = END) (hs : n.header.sub_type = END_INSTANCE) :
    (n.header.length = 4 → endInstanceTryFrom n = .ok ()) ∧
    endEntireTryFrom n = .error .DifferentType := by
  constructor
  · intro hl
    rw [endInstanceTryFrom, if_pos ⟨ht, hs⟩, if_pos hl]
  · rw [endEntireTryFrom, if_neg]
    rintro ⟨-, h2⟩
    rw [hs] at h2
    exact absurd h2 (by decide)

/-- C9 witness: the well-shaped END/END_INSTANCE node converts. -/
theorem c9_amended_witness :
    endInstanceTryFrom
        { header := { device_type := END, sub_type := END_INSTANCE, length := 4 }, data := [] }
      = .ok () ∧
    endEntireTryFrom
        { header := { device_type := END, sub_type := END_INSTANCE, length := 4 }, data := [] }
      = .error .DifferentType := by
  have h := c9_amended
    { header := { device_type := END, sub_type := END_INSTANCE, length := 4 }, data := [] }
    rfl rfl
  exact ⟨h.1 rfl, h.2⟩

/-! ## Raw byte windows -/

theorem getD_take_lt (l : List Nat) (m i : Nat) (h : i < m) :
    (l.take m).getD i 0 = l.getD i 0 := by
  rw [List.getD_eq_getElem?_getD, List.getD_eq_getElem?_getD,
    List.getElem?_take_of_lt h]

theorem typeTag_take (l : List Nat) (m : Nat) (h : 1 ≤ m) :
    typeTag (l.take m) = typeTag l := getD_take_lt l m 0 (by omega)

theorem subTag_take (l : List Nat) (m : Nat) (h : 2 ≤ m) :
    subTag (l.take m) = subTag l := getD_take_lt l m 1 (by omega)

theorem declaredLen_take (l : List Nat) (m : Nat) (h : 4 ≤ m) :
    declaredLen (l.take m) = declaredLen l := by
  unfold declaredLen
  rw [getD_take_lt l m 2 (by omega), getD_take_lt l m 3 (by omega)]

theorem from_ffi_ptr_raw (bytes : List Nat)
    (h4 : 4 ≤ declaredLen bytes) (hle : declaredLen bytes ≤ bytes.length) :
    DevicePathNode.from_ffi_ptr bytes = some (decodeNodeAt bytes) := by
  unfold DevicePathNode.from_ffi_ptr decodeNodeAt
  rw [if_pos ⟨by omega, h4⟩]

theorem decodeNodeAt_header (bytes : List Nat) :
    (decodeNodeAt bytes).header = readHeader bytes := rfl

theorem decodeNodeAt_length (bytes : List Nat) :
    (decodeNodeAt bytes).header.length = declaredLen bytes := rfl

theorem decodeNodeAt_is_end_entire (bytes : List Nat) :
    (decodeNodeAt bytes).is_end_entire = true
      ↔ (typeTag bytes = END ∧ subTag bytes = END_ENTIRE) := by
  simp [DevicePathNode.is_end_entire, decodeNodeAt, readHeader]

theorem wf_ne_nil (bytes : List Nat) (h4 : 4 ≤ declaredLen bytes)
    (hle : declaredLen bytes ≤ bytes.length) : (bytes.isEmpty) = false := by
  cases bytes with
  | nil => simp at hle; omega
  | cons b tl => rfl

theorem nodeIterStep_raw_yield_endEntire (bytes : List Nat)
    (h4 : 4 ≤ declaredLen bytes) (hle : declaredLen bytes ≤ bytes.length)
    (hnot : ¬ (typeTag bytes = END ∧ subTag bytes = END_ENTIRE)) :
    nodeIterStep bytes .endEntireNode
      = .yield (decodeNodeAt bytes) (bytes.drop (declaredLen bytes)) := by
  have hb : (decodeNodeAt bytes).is_end_entire = false := by
    cases hb : (decodeNodeAt bytes).is_end_entire
    · rfl
    · exact absurd ((decodeNodeAt_is_end_entire bytes).mp hb) hnot
  simp only [nodeIterStep, wf_ne_nil bytes h4 hle, Bool.false_eq_true, if_false,
    from_ffi_ptr_raw bytes h4 hle, hb]
  rw [if_pos (by rw [decodeNodeAt_length]; omega)]
  rw [decodeNodeAt_length]

theorem nodeIterStep_raw_done_endEntire (bytes : List Nat)
    (h4 : 4 ≤ declaredLen bytes) (hle : declaredLen bytes ≤ bytes.length)
    (ht : typeTag bytes = END) (hs : subTag bytes = END_ENTIRE) :
    nodeIterStep bytes .endEntireNode = .done := by
  have hb : (decodeNodeAt bytes).is_end_entire = true :=
    (decodeNodeAt_is_end_entire bytes).mpr ⟨ht, hs⟩
  simp only [nodeIterStep, wf_ne_nil bytes h4 hle, Bool.false_eq_true, if_false,
    from_ffi_ptr_raw bytes h4 hle, hb]
  simp

theorem nodeIterStep_raw_yield_anyEnd (bytes : List Nat)
    (h4 : 4 ≤ declaredLen bytes) (hle : declaredLen bytes ≤ bytes.length)
    (ht : typeTag bytes ≠ END) :
    nodeIterStep bytes .anyEndNode
      = .yield (decodeNodeAt bytes) (bytes.drop (declaredLen bytes)) := by
  have hb : ((decodeNodeAt bytes).header.device_type == END) = false :=
    beq_false_of_ne ht
  simp only [nodeIterStep, wf_ne_nil bytes h4 hle, Bool.false_eq_true, if_false,
    from_ffi_ptr_raw bytes h4 hle, hb]
  rw [if_pos (by rw [decodeNodeAt_length]; omega)]
  rw [decodeNodeAt_length]

theorem nodeIterStep_raw_done_anyEnd (bytes : List Nat)
    (h4 : 4 ≤ declaredLen bytes) (hle : declaredLen bytes ≤ bytes.length)
    (ht : typeTag bytes = END) :
    nodeIterStep bytes .anyEndNode = .done := by
  have hb : ((decodeNodeAt bytes).header.device_type == END) = true :=
    beq_iff_eq.mpr ht
  simp only [nodeIterStep, wf_ne_nil bytes h4 hle, Bool.false_eq_true, if_false,
    from_ffi_ptr_raw bytes h4 hle, hb]
  simp

theorem nodeIterStep_raw_yield_noMore (bytes : List Nat)
    (h4 : 4 ≤ declaredLen bytes) (hle : declaredLen bytes ≤ bytes.length) :
    nodeIterStep bytes .noMoreNodes
      = .yield (decodeNodeAt bytes) (bytes.drop (declaredLen bytes)) := by
  simp only [nodeIterStep, wf_ne_nil bytes h4 hle, Bool.false_eq_true, if_false,
    from_ffi_ptr_raw bytes h4 hle, if_neg (by simp : ¬ (false = true))]
  rw [if_pos (by rw [decodeNodeAt_length]; omega)]
  rw [decodeNodeAt_length]

theorem nodeTryFrom_short (bytes : List Nat) (h : bytes.length < 4) :
    nodeTryFrom bytes = .err .InvalidLength := by
  unfold nodeTryFrom headerTryFrom
  rw [if_neg (by omega)]

theorem nodeTryFrom_too_long (bytes : List Nat) (h4 : 4 ≤ bytes.length)
    (h : bytes.length < declaredLen bytes) :
    nodeTryFrom bytes = .err .InvalidLength := by
  unfold nodeTryFrom headerTryFrom
  rw [if_pos h4]
  show (if declaredLen bytes ≤ bytes.length then _ else _) = _
  rw [if_neg (by omega)]

theorem nodeTryFrom_raw_ok (bytes : List Nat)
    (h4 : 4 ≤ declaredLen bytes) (hle : declaredLen bytes ≤ bytes.length) :
    nodeTryFrom bytes = .ok (decodeNodeAt bytes) := by
  unfold nodeTryFrom headerTryFrom
  rw [if_pos (by omega)]
  show (if declaredLen bytes ≤ bytes.length then _ else _) = _
  rw [if_pos hle, from_ffi_ptr_raw bytes h4 hle]

theorem nodeTryFrom_raw_underflow (bytes : List Nat)
    (h4 : 4 ≤ bytes.length) (hdl : declaredLen bytes < 4) :
    nodeTryFrom bytes = .panicked := by
  unfold nodeTryFrom headerTryFrom
  rw [if_pos h4]
  show (if declaredLen bytes ≤ bytes.length then _ else _) = _
  rw [if_pos (by omega)]
  unfold DevicePathNode.from_ffi_ptr
  rw [if_neg (by omega)]

theorem nodeTryFrom_ok_facts (bytes : List Nat) (node : DevicePathNode)
    (h : nodeTryFrom bytes = .ok node) :
    4 ≤ bytes.length ∧ 4 ≤ declaredLen bytes ∧ declaredLen bytes ≤ bytes.length ∧
      node = decodeNodeAt bytes := by
  by_cases h4 : 4 ≤ bytes.length
  · by_cases hle : declaredLen bytes ≤ bytes.length
    · by_cases hdl : 4 ≤ declaredLen bytes
      · rw [nodeTryFrom_raw_ok bytes hdl hle] at h
        cases h
        exact ⟨h4, hdl, hle, rfl⟩
      · rw [nodeTryFrom_raw_underflow bytes h4 (by omega)] at h
        cases h
    · rw [nodeTryFrom_too_long bytes h4 (by omega)] at h
      cases h
  · rw [nodeTryFrom_short bytes (by omega)] at h
    cases h

theorem wfPathBytes_not_nil : ¬ WfPathBytes [] := by
  intro h
  cases h with
  | last _ h4 hlen ht hs => simp [declaredLen] at h4
  | cons _ h4 hle hnot rest => simp [declaredLen] at h4

/-- Success of the bounds-checked size loop means the consumed prefix is
a well-formed path extent lying inside the slice. -/
theorem sizeSliceAux_ok_wf :
    ∀ fuel bytes maxSize acc s,
      sizeInBytesFromSliceAux fuel bytes maxSize acc = .ok s →
      acc ≤ s ∧ s - acc ≤ bytes.length ∧ WfPathBytes (bytes.take (s - acc)) := by
  intro fuel
  induction fuel with
  | zero => intro bytes maxSize acc s h; cases h
  | succ fuel ih =>
    intro bytes maxSize acc s h
    simp only [sizeInBytesFromSliceAux] at h
    cases hnode : nodeTryFrom bytes with
    | err e => rw [hnode] at h; cases h
    | panicked => rw [hnode] at h; cases h
    | ok node =>
      rw [hnode] at h
      obtain ⟨h4b, hdl4, hdlle, hnodeEq⟩ := nodeTryFrom_ok_facts bytes node hnode
      subst hnodeEq
      simp only [decodeNodeAt_length] at h
      by_cases hmax : maxSize < acc + declaredLen bytes
      · rw [if_pos hmax] at h; cases h
      · rw [if_neg hmax] at h
        by_cases hend : (decodeNodeAt bytes).is_end_entire = true
        · rw [if_pos hend] at h
          injection h with h'
          subst h'
          obtain ⟨ht, hs⟩ := (decodeNodeAt_is_end_entire bytes).mp hend
          refine ⟨by omega, by omega, ?_⟩
          have hsub : acc + declaredLen bytes - acc = declaredLen bytes := by omega
          rw [hsub]
          exact WfPathBytes.last _
            (by rw [declaredLen_take bytes _ hdl4]; exact hdl4)
            (by rw [declaredLen_take bytes _ hdl4]; simp [List.length_take]; omega)
            (by rw [typeTag_take bytes _ (by omega)]; exact ht)
            (by rw [subTag_take bytes _ (by omega)]; exact hs)
        · rw [if_neg hend] at h
          obtain ⟨hacc, hlen2, hwf⟩ := ih (bytes.drop (declaredLen bytes)) maxSize
            (acc + declaredLen bytes) s h
          rw [List.length_drop] at hlen2
          have hnot : ¬ (typeTag bytes = END ∧ subTag bytes = END_ENTIRE) := by
            intro hcontra
            exact hend ((decodeNodeAt_is_end_entire bytes).mpr hcontra)
          refine ⟨by omega, by omega, ?_⟩
          apply WfPathBytes.cons
          · rw [declaredLen_take bytes _ (by omega)]; exact hdl4
          · rw [declaredLen_take bytes _ (by omega)]
            simp [List.length_take]
            omega
          · rw [typeTag_take bytes _ (by omega), subTag_take bytes _ (by omega)]
            exact hnot
          · rw [declaredLen_take bytes _ (by omega), List.drop_take]
            have : s - acc - declaredLen bytes = s - (acc + declaredLen bytes) := by omega
            rw [this]
            exact hwf

/-- A well-formed path extent node-iterates to completion with the
whole-path stop policy: no out-of-bounds step, no panic. -/
theorem wfPath_nodeIter_isSome (bytes : List Nat) (h : WfPathBytes bytes) :
    ∀ fuel, bytes.length < fuel →
      (nodeIterToListAux fuel bytes .endEntireNode).isSome = true := by
  induction h with
  | last b h4 hlen ht hs =>
    intro fuel hf
    match fuel, hf with
    | fuel + 1, _ =>
      have hstep := nodeIterStep_raw_done_endEntire b h4 (by omega) ht hs
      simp [nodeIterToListAux, hstep]
  | cons b h4 hle hnot rest ih =>
    intro fuel hf
    match fuel, hf with
    | fuel + 1, hf =>
      have hstep := nodeIterStep_raw_yield_endEntire b h4 hle hnot
      have hih := ih fuel (by rw [List.length_drop]; omega)
      simp only [nodeIterToListAux, hstep]
      cases hres : nodeIterToListAux fuel (b.drop (declaredLen b)) .endEntireNode with
      | none => rw [hres] at hih; simp at hih
      | some l => simp

/-- A well-formed instance extent node-iterates to completion with the
any-END stop policy: no out-of-bounds step, no panic. -/
theorem wfInst_nodeIter_isSome (bytes : List Nat) (h : WfInstBytes bytes) :
    ∀ fuel, bytes.length < fuel →
      (nodeIterToListAux fuel bytes .anyEndNode).isSome = true := by
  induction h with
  | last b h4 hle ht =>
    intro fuel hf
    match fuel, hf with
    | fuel + 1, _ =>
      have hstep := nodeIterStep_raw_done_anyEnd b h4 hle ht
      simp [nodeIterToListAux, hstep]
  | cons b h4 hle ht rest ih =>
    intro fuel hf
    match fuel, hf with
    | fuel + 1, hf =>
      have hstep := nodeIterStep_raw_yield_anyEnd b h4 hle ht
      have hih := ih fuel (by rw [List.length_drop]; omega)
      simp only [nodeIterToListAux, hstep]
      cases hres : nodeIterToListAux fuel (b.drop (declaredLen b)) .anyEndNode with
      | none => rw [hres] at hih; simp at hih
      | some l => simp

/-- On a well-formed path extent, the instance-measuring loop finds an
END-typed node, and the split produces a well-formed instance extent and
a well-formed (or empty) remainder. -/
theorem wfPath_instanceSize (bytes : List Nat) (h : WfPathBytes bytes) :
    ∀ fuel acc, bytes.length < fuel →
      ∃ sz, instanceSizeAux fuel bytes acc = some (acc + sz) ∧ 4 ≤ sz ∧
        sz ≤ bytes.length ∧ WfInstBytes (bytes.take sz) ∧
        (bytes.drop sz = [] ∨ WfPathBytes (bytes.drop sz)) := by
  induction h with
  | last b h4 hlen ht hs =>
    intro fuel acc hf
    match fuel, hf with
    | fuel + 1, _ =>
      have hstep := nodeIterStep_raw_yield_noMore b h4 (by omega)
      have hbeq : ((decodeNodeAt b).header.device_type == END) = true :=
        beq_iff_eq.mpr ht
      refine ⟨declaredLen b, ?_, h4, by omega, ?_, ?_⟩
      · simp [instanceSizeAux, hstep, decodeNodeAt_length, hbeq]
      · exact WfInstBytes.last _
          (by rw [declaredLen_take b _ h4]; exact h4)
          (by rw [declaredLen_take b _ h4]; simp [List.length_take]; omega)
          (by rw [typeTag_take b _ (by omega)]; exact ht)
      · left
        rw [hlen, List.drop_length]
  | cons b h4 hle hnot rest ih =>
    intro fuel acc hf
    match fuel, hf with
    | fuel + 1, hf =>
      have hstep := nodeIterStep_raw_yield_noMore b h4 hle
      by_cases ht : typeTag b = END
      · have hbeq : ((decodeNodeAt b).header.device_type == END) = true :=
          beq_iff_eq.mpr ht
        refine ⟨declaredLen b, ?_, h4, hle, ?_, ?_⟩
        · simp [instanceSizeAux, hstep, decodeNodeAt_length, hbeq]
        · exact WfInstBytes.last _
            (by rw [declaredLen_take b _ h4]; exact h4)
            (by rw [declaredLen_take b _ h4]; simp [List.length_take]; omega)
            (by rw [typeTag_take b _ (by omega)]; exact ht)
        · right
          exact rest
      · have hbeq : ((decodeNodeAt b).header.device_type == END) = false :=
          beq_false_of_ne ht
        obtain ⟨sz, hsz, hsz4, hszle, hwfInst, hrest⟩ := ih fuel (acc + declaredLen b)
          (by rw [List.length_drop]; omega)
        rw [List.length_drop] at hszle
        refine ⟨declaredLen b + sz, ?_, by omega, by omega, ?_, ?_⟩
        · simp only [instanceSizeAux, hstep, decodeNodeAt_length, hbeq,
            Bool.false_eq_true, if_false]
          rw [hsz]
          congr 1
          omega
        · apply WfInstBytes.cons
          · rw [declaredLen_take b _ (by omega)]; exact h4
          · rw [declaredLen_take b _ (by omega)]
            simp [List.length_take]
            omega
          · rw [typeTag_take b _ (by omega)]
            exact ht
          · rw [declaredLen_take b _ (by omega), List.drop_take]
            have : declaredLen b + sz - declaredLen b = sz := by omega
            rw [this]
            exact hwfInst
        · rw [show declaredLen b + sz = declaredLen b + sz from rfl, ← List.drop_drop]
          exact hrest

/-- Instance iteration over a well-formed path extent terminates without
a panic, and every yielded instance extent is well-formed. -/
theorem wfPath_instanceIter :
    ∀ fuel bytes, WfPathBytes bytes → bytes.length < fuel →
      ∃ li, instanceIterToListAux fuel bytes = some li ∧
        ∀ inst ∈ li, WfInstBytes inst := by
  intro fuel
  induction fuel with
  | zero => intro bytes h hf; omega
  | succ fuel ih =>
    intro bytes h hf
    obtain ⟨sz, hsz, h4, hle, hwfInst, hrest⟩ :=
      wfPath_instanceSize bytes h (bytes.length + 1) 0 (by omega)
    rw [Nat.zero_add] at hsz
    have hnext : instanceIterNext bytes
        = some (bytes.take sz,
            if (bytes.drop sz).isEmpty then none else some (bytes.drop sz)) := by
      simp only [instanceIterNext, hsz]
      rw [if_pos hle]
    cases hrest with
    | inl hempty =>
      rw [hempty] at hnext
      simp only [List.isEmpty_nil, if_pos rfl] at hnext
      refine ⟨[bytes.take sz], ?_, ?_⟩
      · simp [instanceIterToListAux, hnext]
      · intro inst hinst
        rw [List.mem_singleton] at hinst
        subst hinst
        exact hwfInst
    | inr hwfrest =>
      have hne : ((bytes.drop sz).isEmpty) = false := by
        cases hd : bytes.drop sz with
        | nil => rw [hd] at hwfrest; exact absurd hwfrest wfPathBytes_not_nil
        | cons a tl => rfl
      rw [hne] at hnext
      simp only [Bool.false_eq_true, if_false] at hnext
      obtain ⟨li, hli, hwfli⟩ := ih (bytes.drop sz) hwfrest
        (by rw [List.length_drop]; omega)
      refine ⟨bytes.take sz :: li, ?_, ?_⟩
      · simp [instanceIterToListAux, hnext, hli]
      · intro inst hinst
        rcases List.mem_cons.mp hinst with rfl | hm
        · exact hwfInst
        · exact hwfli inst hm

/-- C10: every byte slice the safe DevicePath constructor accepts yields
a view on which whole-path node iteration, instance iteration, and node
iteration inside every yielded instance all run to completion without an
out-of-bounds window advance or split (modelled as the panic outcome):
each decoded node length fits the remaining window, and iteration
terminates. -/
theorem c10_in_bounds (bytes d : List Nat)
    (h : DevicePath.tryFromBytes bytes = .ok d) :
    (DevicePath.nodeIterList d).isSome = true ∧
    ∃ li, instanceIterToList d = some li ∧
      ∀ inst ∈ li, (DevicePathInstance.nodeIterList inst).isSome = true := by
  unfold DevicePath.tryFromBytes at h
  cases hs : DevicePath.size_in_bytes_from_slice bytes with
  | err e => rw [hs] at h; cases h
  | panicked => rw [hs] at h; cases h
  | ok s =>
    rw [hs] at h
    injection h with h'
    obtain ⟨-, hslen, hwf⟩ := sizeSliceAux_ok_wf (bytes.length + 1) bytes bytes.length 0 s hs
    rw [Nat.sub_zero] at hslen hwf
    subst h'
    constructor
    · exact wfPath_nodeIter_isSome (bytes.take s) hwf ((bytes.take s).length + 1) (by omega)
    · obtain ⟨li, hli, hwfli⟩ := wfPath_instanceIter ((bytes.take s).length + 1)
        (bytes.take s) hwf (by omega)
      refine ⟨li, hli, ?_⟩
      intro inst hinst
      exact wfInst_nodeIter_isSome inst (hwfli inst hinst) (inst.length + 1) (by omega)

/-- C10 witness: the test path is accepted and fully iterable. -/
theorem c10_in_bounds_witness :
    (DevicePath.nodeIterList testPathBytes).isSome = true ∧
    ∃ li, instanceIterToList testPathBytes = some li ∧
      ∀ inst ∈ li, (DevicePathInstance.nodeIterList inst).isSome = true := by
  exact c10_in_bounds testPathBytes testPathBytes (by decide)

/-! ## Truncation behavior of the bounds-checked size computation -/

theorem typeTag_encode_single (n : RawNode) : typeTag (encodeNode n) = n.device_type := by
  have := typeTag_encode n []
  rwa [List.append_nil] at this

theorem declaredLen_encode_single (n : RawNode) : declaredLen (encodeNode n) = n.len := by
  have := declaredLen_encode n []
  rwa [List.append_nil] at this

/-- Any window starting with a node header whose declared length is at
least 4 and exceeds the window makes the first step of the size loop
fail with InvalidLength. -/
theorem sizeSliceAux_head_truncated (n : RawNode) (tail : List Nat) (k : Nat)
    (hk : k < n.len) :
    ∀ fuel maxSize acc,
      sizeInBytesFromSliceAux (fuel + 1) ((encodeNode n ++ tail).take k) maxSize acc
        = .err .InvalidLength := by
  intro fuel maxSize acc
  have hklen : ((encodeNode n ++ tail).take k).length = k := by
    rw [List.length_take]
    have := length_encodeNode n
    simp only [List.length_append]
    omega
  by_cases h4 : k < 4
  · have herr := nodeTryFrom_short ((encodeNode n ++ tail).take k) (by omega)
    simp [sizeInBytesFromSliceAux, herr]
  · have hdl : declaredLen ((encodeNode n ++ tail).take k) = n.len := by
      rw [declaredLen_take _ _ (by omega), declaredLen_encode]
    have herr := nodeTryFrom_too_long ((encodeNode n ++ tail).take k)
      (by omega) (by rw [hdl]; omega)
    simp [sizeInBytesFromSliceAux, herr]

/-- Truncating a well-formed encoded path below its total size makes the
size loop fail with InvalidLength, whatever the accumulator and bound. -/
theorem sizeSliceAux_truncated (ns : List RawNode) (term : RawNode)
    (hns : ∀ n ∈ ns, ¬ n.isEndEntireRaw) :
    ∀ fuel k maxSize acc, k < nodesSize ns + term.len → k < 4 * fuel →
      sizeInBytesFromSliceAux fuel ((encodeNodes ns ++ encodeNode term).take k) maxSize acc
        = .err .InvalidLength := by
  induction ns with
  | nil =>
    intro fuel k maxSize acc hk hfuel
    match fuel, (by omega : 0 < fuel) with
    | fuel + 1, _ =>
      have hrw : encodeNodes [] ++ encodeNode term = encodeNode term ++ [] := by
        simp [encodeNodes]
      rw [hrw]
      exact sizeSliceAux_head_truncated term [] k (by simp [nodesSize] at hk; omega)
        fuel maxSize acc
  | cons n ns ih =>
    intro fuel k maxSize acc hk hfuel
    match fuel, (by omega : 0 < fuel) with
    | fuel + 1, _ =>
      have hrw : encodeNodes (n :: ns) ++ encodeNode term
          = encodeNode n ++ (encodeNodes ns ++ encodeNode term) := by
        simp [encodeNodes]
      rw [hrw]
      by_cases hkn : k < n.len
      · exact sizeSliceAux_head_truncated n (encodeNodes ns ++ encodeNode term) k hkn
          fuel maxSize acc
      · have htake : (encodeNode n ++ (encodeNodes ns ++ encodeNode term)).take k
            = encodeNode n ++ (encodeNodes ns ++ encodeNode term).take (k - n.len) := by
          rw [List.take_append_eq_append_take]
          congr 1
          · exact List.take_of_length_le (by rw [length_encodeNode]; omega)
          · rw [length_encodeNode]
        rw [htake]
        simp only [sizeInBytesFromSliceAux, nodeTryFrom_encode, toNode_header_length]
        by_cases hmax : maxSize < acc + n.len
        · rw [if_pos hmax]
        · rw [if_neg hmax]
          have hnotEnd : n.toNode.is_end_entire = false := by
            cases hb : n.toNode.is_end_entire
            · rfl
            · exact absurd ((toNode_end_entire_iff n).mp hb)
                (hns n (List.mem_cons_self n ns))
          rw [if_neg (by simp [hnotEnd])]
          rw [List.drop_left' (length_encodeNode n)]
          have hsz : nodesSize (n :: ns) = n.len + nodesSize ns := rfl
          exact ih (fun m hm => hns m (List.mem_cons_of_mem n hm)) fuel (k - n.len)
            maxSize (acc + n.len) (by rw [hsz] at hk; omega)
            (by have := four_le_len n; omega)

/-- C6 counterexample: a 4-byte slice declaring length 3 is neither
shorter than the header nor shorter than its declared total length, yet
the conversion does not succeed (and does not fail with InvalidLength):
it reaches the `length - 4` underflow and panics. -/
theorem c6_counterexample :
    nodeTryFrom [160, 176, 3, 0] = .panicked ∧
    nodeTryFrom [160, 176, 3, 0] ≠ .err .InvalidLength ∧
    ∀ node, nodeTryFrom [160, 176, 3, 0] ≠ .ok node := by
  refine ⟨rfl, by decide, ?_⟩
  intro node h
  rw [show nodeTryFrom [160, 176, 3, 0] = .panicked from rfl] at h
  exact DecodeResult.noConfusion h

/-- C6 amended: the safe node constructor fails with InvalidLength
exactly when the slice is shorter than the 4-byte header or shorter than
the declared total length; when neither holds and the declared length is
at least 4 it succeeds with a node spanning the header plus the declared
payload (declared length minus 4 bytes); when neither holds but the
declared length is below 4 it underflows and panics instead of
succeeding. -/
theorem c6_amended (bytes : List Nat) :
    (nodeTryFrom bytes = .err .InvalidLength ↔
      bytes.length < 4 ∨ bytes.length < declaredLen bytes) ∧
    (4 ≤ bytes.length → 4 ≤ declaredLen bytes → declaredLen bytes ≤ bytes.length →
      nodeTryFrom bytes = .ok (decodeNodeAt bytes) ∧
      (decodeNodeAt bytes).header = readHeader bytes ∧
      (decodeNodeAt bytes).data.length = declaredLen bytes - 4) ∧
    (4 ≤ bytes.length → declaredLen bytes < 4 → nodeTryFrom bytes = .panicked) := by
  refine ⟨⟨?_, ?_⟩, ?_, ?_⟩
  · intro herr
    by_contra hcontra
    push_neg at hcontra
    obtain ⟨h4, hle⟩ := hcontra
    by_cases hdl : 4 ≤ declaredLen bytes
    · rw [nodeTryFrom_raw_ok bytes hdl hle] at herr
      cases herr
    · rw [nodeTryFrom_raw_underflow bytes h4 (by omega)] at herr
      cases herr
  · intro hcases
    cases hcases with
    | inl h => exact nodeTryFrom_short bytes h
    | inr h =>
      by_cases h4 : 4 ≤ bytes.length
      · exact nodeTryFrom_too_long bytes h4 h
      · exact nodeTryFrom_short bytes (by omega)
  · intro h4 hdl hle
    refine ⟨nodeTryFrom_raw_ok bytes hdl hle, rfl, ?_⟩
    show ((bytes.drop 4).take (declaredLen bytes - 4)).length = declaredLen bytes - 4
    rw [List.length_take, List.length_drop]
    omega
  · intro h4 hdl
    exact nodeTryFrom_raw_underflow bytes h4 hdl

/-- C6 witness: a complete 6-byte node decodes; a bare 2-byte header
fails with InvalidLength. -/
theorem c6_amended_witness :
    nodeTryFrom [160, 176, 6, 0, 9, 9] = .ok (decodeNodeAt [160, 176, 6, 0, 9, 9]) ∧
    nodeTryFrom [160, 176] = .err .InvalidLength := by
  exact ⟨((c6_amended [160, 176, 6, 0, 9, 9]).2.1 (by decide) (by decide) (by decide)).1,
    (c6_amended [160, 176]).1.mpr (by decide)⟩

/-- C7 counterexample: the 8-byte slice [2, 2, 2, 0, 9, 9, 99, 0] is
truncated below the 99-byte declared length of its second element, yet
the bounds-checked size computation panics on the first element (whose
declared length 2 underflows) instead of failing with InvalidLength. -/
theorem c7_counterexample :
    DevicePath.size_in_bytes_from_slice [2, 2, 2, 0, 9, 9, 99, 0] = .panicked ∧
    DevicePath.size_in_bytes_from_slice [2, 2, 2, 0, 9, 9, 99, 0]
      ≠ .err .InvalidLength := by
  refine ⟨rfl, ?_⟩
  intro h
  rw [show DevicePath.size_in_bytes_from_slice [2, 2, 2, 0, 9, 9, 99, 0] = .panicked
    from rfl] at h
  exact DecodeResult.noConfusion h

/-- C7 amended: whenever the bounds-checked size computation succeeds,
the computed size lies within the slice and the consumed prefix is a
well-formed chain that stops exactly upon accumulating the declared
length of its END/END_ENTIRE element, so the computation never consumes
past the supplied slice; and truncating a well-formed encoded path
(whose element headers all declare length at least 4) below its total
size always fails with InvalidLength. The declared-length-below-4 case
panics instead (see the C1 and C7 counterexample records). -/
theorem c7_amended :
    (∀ bytes s, DevicePath.size_in_bytes_from_slice bytes = .ok s →
      s ≤ bytes.length ∧ WfPathBytes (bytes.take s)) ∧
    (∀ ns term k, (∀ n ∈ ns, ¬ n.isEndEntireRaw) → k < nodesSize (ns ++ [term]) →
      DevicePath.size_in_bytes_from_slice ((encodeNodes ns ++ encodeNode term).take k)
        = .err .InvalidLength) := by
  constructor
  · intro bytes s h
    obtain ⟨-, hlen, hwf⟩ := sizeSliceAux_ok_wf (bytes.length + 1) bytes bytes.length 0 s h
    rw [Nat.sub_zero] at hlen hwf
    exact ⟨hlen, hwf⟩
  · intro ns term k hns hk
    have hsum : nodesSize (ns ++ [term]) = nodesSize ns + term.len := by
      rw [nodesSize_append]
      simp [nodesSize]
    rw [hsum] at hk
    have hklen : ((encodeNodes ns ++ encodeNode term).take k).length = k := by
      rw [List.length_take, List.length_append, length_encodeNodes, length_encodeNode]
      omega
    unfold DevicePath.size_in_bytes_from_slice
    rw [hklen]
    exact sizeSliceAux_truncated ns term hns (k + 1) k k 0 hk (by omega)

/-- C7 witness: size 36 is accepted within the 36-byte test path, whose
prefix is well-formed; the 10-byte truncation fails with InvalidLength. -/
theorem c7_amended_witness :
    (36 ≤ testPathBytes.length ∧ WfPathBytes (testPathBytes.take 36)) ∧
    DevicePath.size_in_bytes_from_slice ((encodeNodes testRawNodes ++ encodeNode testTerm).take 10)
      = .err .InvalidLength := by
  exact ⟨c7_amended.1 testPathBytes 36 (by decide),
    c7_amended.2 testRawNodes testTerm 10 (by decide) (by decide)⟩

end DevicePathSpec
